import Mathlib

/-!
# Verification of the crossword CSP solver (`generate.py`)

Shallow embedding of `CrosswordCreator` from `src/generate.py`.

* Words are lists of characters; Python string indexing `w[i]` becomes
  `List.getD i ' '` (out-of-bounds indexing is a precondition violation of
  the puzzle structure per the spec, so the default is never relevant).
* The domain store `self.domains` is a function from variables to word
  lists (Python: a dict from variable to a set of words; list membership
  models set membership, and the set-removal loops become `List.filter`).
* The `Crossword` puzzle structure is supplied by `crossword.py`, which is
  not part of the covered sources; it is modelled from the spec as an
  abstract structure (word list, variable list, overlap function) with the
  neighbor relation derived from overlaps.
* Recursive procedures (`ac3`'s worklist loop, `backtrack`) are embedded
  with an explicit fuel parameter; `none` marks fuel exhaustion and
  lemmas prove the fuel bounds used by `solve` are always sufficient.
* `backtrack` threads the domain store through every call so that the
  no-mutation frame property is a provable statement rather than a
  modelling assumption.
-/

namespace Crossword

/-- A candidate word: Python `str` as a list of characters. -/
abbrev Word := List Char

/-- A slot (`Variable` in `crossword.py`): starting cell, direction, length.
Modelled from the spec: "identified by its starting row/column, orientation
(ACROSS or DOWN), and fixed length. Two slots are equal iff all four
attributes match." `down = true` means DOWN, `false` means ACROSS. -/
structure Variable where
  i : Nat
  j : Nat
  down : Bool
  length : Nat
deriving DecidableEq

/-- Modelled from the spec: the puzzle structure supplied by `crossword.py`
(not under `src/`): the word list, the finite set of slots, and the
precomputed pairwise overlap map (`None` or a pair of offsets). -/
structure Puzzle where
  words : List Word
  vars : List Variable   -- `self.variables` (Lean reserves the name `variables`)
  overlaps : Variable → Variable → Option (Nat × Nat)

/-- Modelled from the spec: "y is a neighbor of x iff overlap(x,y) is not
None" (two distinct slots that cross). -/
def neighbors (c : Puzzle) (x : Variable) : List Variable :=
  c.vars.filter (fun y => (y != x) && (c.overlaps x y).isSome)

/-- The mutable domain store `self.domains`. -/
abbrev Domains := Variable → List Word

/-- `self.domains = {var: self.crossword.words.copy() for var in variables}`
(from `CrosswordCreator.__init__`). -/
def initDomains (c : Puzzle) : Domains := fun _ => c.words

/-- Pointwise update of the domain store (`self.domains[x] = ...`). -/
def updateD (d : Domains) (x : Variable) (ws : List Word) : Domains :=
  fun v => if v = x then ws else d v

/-- A partial assignment: Python dict from variable to word, in insertion
order (new keys are appended at the end, as CPython dicts do). -/
abbrev Assignment := List (Variable × Word)

/-- Python `assignment[v]` / `v in assignment`: first binding for `v`. -/
def lookupA (a : Assignment) (v : Variable) : Option Word :=
  (a.find? (fun kv => kv.1 == v)).map Prod.snd

/-- `CrosswordCreator.enforce_node_consistency`: for every variable, remove
from its domain every word whose length differs from the variable's length
(the copy-and-remove loop over a set is a filter). -/
def enforce_node_consistency (c : Puzzle) (d : Domains) : Domains :=
  c.vars.foldl
    (fun d var => updateD d var ((d var).filter (fun w => w.length == var.length)))
    d

/-- `CrosswordCreator.revise`: if `x` and `y` overlap at offsets `(i, j)`,
remove from `x`'s domain every word with no matching partner in `y`'s
domain, and report whether anything was removed; with no overlap, do
nothing and report `false`.  Returns the flag together with the updated
domain store (the Python method mutates `self.domains`). -/
def revise (c : Puzzle) (x y : Variable) (d : Domains) : Bool × Domains :=
  match c.overlaps x y with
  | none => (false, d)
  | some (i, j) =>
    let xwords := d x
    let ywords := d y
    let support : Word → Bool := fun w => ywords.any (fun v => w.getD i ' ' == v.getD j ' ')
    (xwords.any (fun w => ! support w), updateD d x (xwords.filter support))

/-- Sum of the current domain sizes (used only to bound `ac3`'s fuel). -/
def totalSize (c : Puzzle) (d : Domains) : Nat :=
  (c.vars.map (fun v => (d v).length)).sum

/-- `CrosswordCreator.ac3`'s worklist loop.  The Python `Queue` is a FIFO
list: `get` pops the head, `put` appends at the tail.  `fuel` bounds the
number of iterations; `none` means the fuel ran out (a sufficient bound is
proved below, so `solve` never hits it). -/
def ac3F (c : Puzzle) : Nat → List (Variable × Variable) → Domains →
    Option (Bool × Domains)
  | _, [], d => some (true, d)
  | 0, _ :: _, _ => none
  | fuel + 1, (X, Y) :: rest, d =>
    let rd := revise c X Y d
    if rd.1 then
      if (rd.2 X).length = 0 then some (false, rd.2)
      else
        ac3F c fuel
          (rest ++ ((neighbors c X).filter (fun Z => Z != Y)).map (fun Z => (Z, X)))
          rd.2
    else ac3F c fuel rest rd.2

/-- The initial worklist when `ac3` is called with `arcs=None`: every
ordered pair `(var, neighbor)`. -/
def initialArcs (c : Puzzle) : List (Variable × Variable) :=
  c.vars.foldr
    (fun var acc => (neighbors c var).map (fun nb => (var, nb)) ++ acc) []

/-- A fuel bound sufficient for `ac3F` (proved below): one step per initial
arc plus, for every possible domain-element removal, one full requeue. -/
def ac3Fuel (c : Puzzle) (d : Domains) (q : List (Variable × Variable)) : Nat :=
  q.length + totalSize c d * c.vars.length + 1

/-- `CrosswordCreator.ac3` with its default `arcs=None`. -/
def ac3 (c : Puzzle) (d : Domains) : Option (Bool × Domains) :=
  ac3F c (ac3Fuel c d (initialArcs c)) (initialArcs c) d

/-- The domain store after the default `ac3` run (the `getD` default is
irrelevant: the fuel bound is proved sufficient). -/
def ac3Dom (c : Puzzle) (d : Domains) : Domains :=
  ((ac3 c d).getD (true, d)).2

/-- `CrosswordCreator.assignment_complete`:
`len(assignment) == len(self.crossword.variables)`. -/
def assignment_complete (c : Puzzle) (a : Assignment) : Bool :=
  a.length == c.vars.length

/-- The loop body of `CrosswordCreator.consistent`: walk the assignment's
entries in insertion order, carrying the `distinct` list of words seen so
far.  For each entry: fail on a reused word, fail on a length mismatch,
fail when an assigned neighbor disagrees at the overlap offsets.  (The
`none` overlap branch is unreachable for neighbors, where the overlap is
always present; Python would raise there.) -/
def consistentFrom (c : Puzzle) (a : Assignment) :
    List Word → List (Variable × Word) → Bool
  | _, [] => true
  | distinct, (var, w) :: rest =>
    if distinct.contains w then false
    else if w.length != var.length then false
    else if (neighbors c var).all (fun nb =>
        match lookupA a nb with
        | none => true
        | some nw =>
          match c.overlaps var nb with
          | some (i, j) => w.getD i ' ' == nw.getD j ' '
          | none => true) then
      consistentFrom c a (distinct ++ [w]) rest
    else false

/-- `CrosswordCreator.consistent`. -/
def consistent (c : Puzzle) (a : Assignment) : Bool :=
  consistentFrom c a [] a

/-- Stable insertion used by `sortS`: `x` is placed before the first
element `y` with `¬ lt y x`; since Python's `list.sort` is stable, equal
keys keep their original relative order, which this insertion reproduces. -/
def insertS (lt : α → α → Bool) (x : α) : List α → List α
  | [] => [x]
  | y :: ys => if lt y x then y :: insertS lt x ys else x :: y :: ys

/-- Stable sort modelling Python's `list.sort(key=...)`; `lt y x` means
"`y` must stay in front of `x`". -/
def sortS (lt : α → α → Bool) : List α → List α
  | [] => []
  | x :: xs => insertS lt x (sortS lt xs)

/-- The cost computed inside `CrosswordCreator.order_domain_values` for one
candidate word: across the unassigned neighbors, the number of words of the
neighbor's current domain equal to the candidate. -/
def odvCost (c : Puzzle) (d : Domains) (var : Variable) (a : Assignment)
    (value : Word) : Nat :=
  (neighbors c var).foldl
    (fun cost nb =>
      if (lookupA a nb).isNone then cost + (d nb).countP (fun nv => nv == value)
      else cost)
    0

/-- `CrosswordCreator.order_domain_values`: pair every word of `var`'s
domain with its cost, sort by cost with `reverse=True` (highest cost
first — this is what the code does), and return the words. -/
def order_domain_values (c : Puzzle) (d : Domains) (var : Variable)
    (a : Assignment) : List Word :=
  (sortS (fun p q => q.2 < p.2)
    ((d var).map (fun value => (value, odvCost c d var a value)))).map Prod.fst

/-- The `variables_new` computation of
`CrosswordCreator.select_unassigned_variable`: start from the full variable
list and, for every variable and every assignment key it equals, remove it
once. -/
def unassignedVars (c : Puzzle) (a : Assignment) : List Variable :=
  c.vars.foldl
    (fun acc var =>
      (a.map Prod.fst).foldl
        (fun acc2 key => if var = key then acc2.erase var else acc2) acc)
    c.vars

/-- The `variables` list of dicts built by `select_unassigned_variable`:
triples `(var, mrv, degree)` over the unassigned variables. -/
def selVlist (c : Puzzle) (d : Domains) (a : Assignment) :
    List (Variable × Nat × Nat) :=
  (unassignedVars c a).map
    (fun var => (var, (d var).length, (neighbors c var).length))

/-- `variables.sort(key=self.get_mrv)`: stable sort by `mrv` ascending. -/
def selSorted (c : Puzzle) (d : Domains) (a : Assignment) :
    List (Variable × Nat × Nat) :=
  sortS (fun p q => p.2.1 < q.2.1) (selVlist c d a)

/-- The `variables_tied` list: the sorted head plus every element whose
`mrv` equals its sorted predecessor's — ties at any mrv level, not only
the minimum. -/
def selTied (c : Puzzle) (d : Domains) (a : Assignment) :
    List (Variable × Nat × Nat) :=
  match selSorted c d a with
  | [] => []
  | p :: _ =>
    p :: ((selSorted c d a).zip (selSorted c d a).tail).filterMap
      (fun pq => if pq.1.2.1 == pq.2.2.1 then some pq.2 else none)

/-- `CrosswordCreator.select_unassigned_variable`: single candidate or
strict mrv minimum is returned directly; otherwise the tie list is sorted
by degree descending and its head returned.  `none` models the
`IndexError` Python raises on an empty candidate list (never reached from
`backtrack`). -/
def select_unassigned_variable (c : Puzzle) (d : Domains) (a : Assignment) :
    Option Variable :=
  match selSorted c d a with
  | [] => none
  | [p] => some p.1
  | p :: q :: _ =>
    if p.2.1 != q.2.1 then some p.1
    else
      match sortS (fun u v => v.2.2 < u.2.2) (selTied c d a) with
      | [] => none
      | t :: _ => some t.1

/-- The `for value in self.order_domain_values(var, assignment)` loop of
`CrosswordCreator.backtrack`, with the recursive call abstracted as `bt`.
Assigning is appending `(var, value)`; `del assignment[var]` is continuing
with the unextended `a`.  The domain store is threaded through every call
(the frame property below proves it is never changed). -/
def btLoop (c : Puzzle)
    (bt : Domains → Assignment → Option (Option Assignment) × Domains)
    (var : Variable) (a : Assignment) :
    List Word → Domains → Option (Option Assignment) × Domains
  | [], d => (some none, d)
  | value :: rest, d =>
    let a2 := a ++ [(var, value)]
    if consistent c a2 then
      match bt d a2 with
      | (some (some r), d2) => (some (some r), d2)
      | (some none, d2) => btLoop c bt var a rest d2
      | (none, d2) => (none, d2)
    else btLoop c bt var a rest d

/-- `CrosswordCreator.backtrack`, fuelled: the result is
`(some (some r), d)` for a returned assignment, `(some none, d)` for
Python's `None`, and `(none, d)` when the fuel ran out (never the case for
the bound proved below).  `select = none` (Python: `IndexError`) is mapped
to Python `None`; it is unreachable under the invariants proved below. -/
def backtrack (c : Puzzle) :
    Nat → Domains → Assignment → Option (Option Assignment) × Domains
  | fuel, d, a =>
    if assignment_complete c a then (some (some a), d)
    else
      match fuel with
      | 0 => (none, d)
      | fuel' + 1 =>
        match select_unassigned_variable c d a with
        | none => (some none, d)
        | some var =>
          btLoop c (fun d' a' => backtrack c fuel' d' a') var a
            (order_domain_values c d var a) d

/-- `CrosswordCreator.solve`: node consistency, then `ac3()` whose boolean
result is discarded (exactly as in the code: `self.ac3()` on its own
line), then `backtrack(dict())` on the post-`ac3` domain store.  The outer
`Option` layer is fuel exhaustion, proved unreachable below. -/
def solveR (c : Puzzle) : Option (Option Assignment) :=
  match ac3 c (enforce_node_consistency c (initDomains c)) with
  | none => none
  | some (_b, d2) => (backtrack c c.vars.length d2 []).1

/-- `CrosswordCreator.solve` collapsed to Python's return value:
`some r` is a complete assignment, `none` is Python `None`. -/
def solve (c : Puzzle) : Option Assignment :=
  (solveR c).join

/-- Invocation counter mirroring `btLoop`: how many times the `backtrack`
body runs in each loop iteration (`btc` counts the recursive call that
`bt` performs). -/
def btLoopC (c : Puzzle)
    (bt : Domains → Assignment → Option (Option Assignment) × Domains)
    (btc : Domains → Assignment → Nat)
    (var : Variable) (a : Assignment) : List Word → Domains → Nat
  | [], _ => 0
  | value :: rest, d =>
    let a2 := a ++ [(var, value)]
    if consistent c a2 then
      match bt d a2 with
      | (some (some _), _) => btc d a2
      | (some none, d2) => btc d a2 + btLoopC c bt btc var a rest d2
      | (none, _) => btc d a2
    else btLoopC c bt btc var a rest d

/-- Number of invocations of `backtrack` (itself included) performed by a
call `backtrack(assignment)`, mirroring `backtrack`'s control flow. -/
def backtrackC (c : Puzzle) : Nat → Domains → Assignment → Nat
  | fuel, d, a =>
    if assignment_complete c a then 1
    else
      match fuel with
      | 0 => 1
      | fuel' + 1 =>
        match select_unassigned_variable c d a with
        | none => 1
        | some var =>
          1 + btLoopC c (fun d' a' => backtrack c fuel' d' a')
            (fun d' a' => backtrackC c fuel' d' a') var a
            (order_domain_values c d var a) d

/-- Number of invocations of `backtrack` performed by `solve()`: as in the
code, `ac3()`'s boolean result `_b` is discarded and `backtrack` is
invoked unconditionally afterwards. -/
def solveBacktrackCalls (c : Puzzle) : Nat :=
  match ac3 c (enforce_node_consistency c (initDomains c)) with
  | none => 0
  | some (_b, d2) => backtrackC c c.vars.length d2 []

/-! ## Concrete puzzles used as counterexamples and witnesses -/

/-- A single ACROSS slot of length 1. -/
def V1 : Variable := ⟨0, 0, false, 1⟩

/-- One length-1 slot, word list `{"AB"}`: node consistency empties the
slot's domain, and the slot has no neighbors. -/
def P1 : Puzzle :=
  { words := [['A', 'B']]
    vars := [V1]
    overlaps := fun _ _ => none }

/-- One length-1 slot, word list `{"A", "BB"}` (spec scenario example 1). -/
def P2 : Puzzle :=
  { words := [['A'], ['B', 'B']]
    vars := [V1]
    overlaps := fun _ _ => none }

/-- An ACROSS slot of length 1 at the origin. -/
def X6 : Variable := ⟨0, 0, false, 1⟩

/-- A DOWN slot of length 1 at the origin, crossing `X6`. -/
def Y6 : Variable := ⟨0, 0, true, 1⟩

/-- Two crossing length-1 slots overlapping at offsets `(0, 0)`. -/
def P6 : Puzzle :=
  { words := [['A'], ['B']]
    vars := [X6, Y6]
    overlaps := fun x y =>
      if x = X6 ∧ y = Y6 then some (0, 0)
      else if x = Y6 ∧ y = X6 then some (0, 0)
      else none }

/-- Domain store for `P6`: `X6 ↦ {"A"}`, `Y6 ↦ {"A", "B"}`. -/
def D6 : Domains := fun v => if v = X6 then [['A']] else [['A'], ['B']]

/-- Domain store for `P6` used for `order_domain_values`:
`X6 ↦ {"A", "B"}`, `Y6 ↦ {"A"}`. -/
def D3 : Domains := fun v => if v = X6 then [['A'], ['B']] else [['A']]

/-- Four slots for the `select_unassigned_variable` counterexample. -/
def W0 : Variable := ⟨0, 0, false, 1⟩

/-- Second slot of the `select_unassigned_variable` counterexample. -/
def W1 : Variable := ⟨1, 0, false, 1⟩

/-- Third slot of the `select_unassigned_variable` counterexample. -/
def W2 : Variable := ⟨2, 0, false, 1⟩

/-- Hub slot crossing `W0`, `W1` and `W2` (degree 3). -/
def W3 : Variable := ⟨0, 0, true, 3⟩

/-- Puzzle where `W3` crosses each of `W0`, `W1`, `W2`; domain sizes are
`W0 ↦ 1`, `W1 ↦ 1`, `W2 ↦ 2`, `W3 ↦ 2` under `D4`. -/
def P4 : Puzzle :=
  { words := [['A'], ['B'], ['C']]
    vars := [W0, W1, W2, W3]
    overlaps := fun x y =>
      if x = W3 ∧ (y = W0 ∨ y = W1 ∨ y = W2) then some (0, 0)
      else if (x = W0 ∨ x = W1 ∨ x = W2) ∧ y = W3 then some (0, 0)
      else none }

/-- Domain store for `P4` with sizes 1, 1, 2, 2. -/
def D4 : Domains := fun v =>
  if v = W0 then [['A']]
  else if v = W1 then [['B']]
  else [['A'], ['B']]

/-- A DOWN slot of length 2 at the origin, crossing `X6`. -/
def Y5 : Variable := ⟨0, 0, true, 2⟩

/-- A length-1 slot crossing a length-2 slot at offsets `(0, 0)` with word
list `{"A", "BC"}`: node consistency leaves both domains nonempty, but
`ac3` then empties the length-1 slot's domain ("A" has no partner in
`{"BC"}` agreeing at the shared cell). -/
def P5 : Puzzle :=
  { words := [['A'], ['B', 'C']]
    vars := [X6, Y5]
    overlaps := fun x y =>
      if x = X6 ∧ y = Y5 then some (0, 0)
      else if x = Y5 ∧ y = X6 then some (0, 0)
      else none }

/-! ## Generic helper lemmas -/

theorem mem_insertS {lt : α → α → Bool} {x y : α} {l : List α} :
    y ∈ insertS lt x l ↔ y = x ∨ y ∈ l := by
  induction l with
  | nil => simp [insertS]
  | cons z zs ih =>
    simp only [insertS]
    split
    all_goals simp only [List.mem_cons, ih]
    all_goals tauto

theorem mem_sortS {lt : α → α → Bool} {y : α} {l : List α} :
    y ∈ sortS lt l ↔ y ∈ l := by
  induction l with
  | nil => simp [sortS]
  | cons x xs ih => simp [sortS, mem_insertS, ih]

theorem updateD_apply (d : Domains) (x v : Variable) (ws : List Word) :
    updateD d x ws v = if v = x then ws else d v := rfl

theorem length_filter_lt_of_mem {p : α → Bool} {l : List α} {x : α}
    (hx : x ∈ l) (hp : p x = false) : (l.filter p).length < l.length := by
  induction l with
  | nil => cases hx
  | cons y ys ih =>
    rcases List.mem_cons.1 hx with rfl | hmem
    · simp only [List.filter_cons, hp]
      exact Nat.lt_succ_of_le (List.length_filter_le _ _)
    · have hlt := ih hmem
      simp only [List.filter_cons, List.length_cons]
      split
      · simpa using Nat.succ_lt_succ hlt
      · exact Nat.lt_succ_of_lt hlt

/-! ## Node consistency (`enforce_node_consistency`) -/

theorem enforce_foldl :
    ∀ (vs : List Variable) (d : Domains) (v : Variable),
      (vs.foldl
        (fun d var => updateD d var ((d var).filter (fun w => w.length == var.length)))
        d) v
      = if v ∈ vs then (d v).filter (fun w => w.length == v.length) else d v := by
  intro vs
  induction vs with
  | nil => intro d v; simp
  | cons x xs ih =>
    intro d v
    rw [List.foldl_cons, ih]
    by_cases hv : v ∈ xs
    · simp only [hv, if_pos, List.mem_cons, or_true, updateD_apply]
      by_cases hvx : v = x
      · subst hvx
        simp [List.filter_filter]
      · simp [hvx]
    · by_cases hvx : v = x
      · subst hvx
        simp [hv, updateD_apply]
      · simp [hv, hvx, updateD_apply]

theorem enforce_node_consistency_apply (c : Puzzle) (d : Domains)
    (v : Variable) (hv : v ∈ c.vars) :
    enforce_node_consistency c d v = (d v).filter (fun w => w.length == v.length) := by
  unfold enforce_node_consistency
  rw [enforce_foldl]
  simp [hv]

/-! ## `revise` -/

theorem mem_neighbors {c : Puzzle} {x y : Variable} :
    y ∈ neighbors c x ↔ y ∈ c.vars ∧ y ≠ x ∧ (c.overlaps x y).isSome := by
  simp [neighbors, List.mem_filter, bne_iff_ne, and_assoc]

theorem revise_none {c : Puzzle} {x y : Variable} {d : Domains}
    (h : c.overlaps x y = none) : revise c x y d = (false, d) := by
  simp [revise, h]

theorem revise_some {c : Puzzle} {x y : Variable} {d : Domains} {i j : Nat}
    (h : c.overlaps x y = some (i, j)) :
    revise c x y d =
      ((d x).any (fun w => ! (d y).any (fun v => w.getD i ' ' == v.getD j ' ')),
       updateD d x
         ((d x).filter (fun w => (d y).any (fun v => w.getD i ' ' == v.getD j ' ')))) := by
  simp [revise, h]

theorem revise_subset (c : Puzzle) (x y : Variable) (d : Domains) (v : Variable) :
    (revise c x y d).2 v ⊆ d v := by
  match h : c.overlaps x y with
  | none => rw [revise_none h]; exact fun _ h => h
  | some (i, j) =>
    rw [revise_some h]
    simp only [updateD_apply]
    split
    · next hv =>
      subst hv
      exact fun a ha => (List.mem_filter.1 ha).1
    · exact fun _ h => h

theorem revise_false_eq {c : Puzzle} {x y : Variable} {d : Domains}
    (h : (revise c x y d).1 = false) : (revise c x y d).2 = d := by
  match ho : c.overlaps x y with
  | none => rw [revise_none ho]
  | some (i, j) =>
    rw [revise_some ho] at h ⊢
    simp only [List.any_eq_true, Bool.not_eq_true', not_exists, not_and,
      Bool.not_eq_false] at h
    funext v
    simp only [updateD_apply]
    split
    · next hv =>
      subst hv
      exact List.filter_eq_self.2 (by simpa using h)
    · rfl

/-! ## `ac3F` step equations -/

theorem ac3F_nil (c : Puzzle) (fuel : Nat) (d : Domains) :
    ac3F c fuel [] d = some (true, d) := by
  cases fuel <;> rfl

theorem ac3F_zero_cons (c : Puzzle) (p : Variable × Variable)
    (rest : List (Variable × Variable)) (d : Domains) :
    ac3F c 0 (p :: rest) d = none := rfl

theorem ac3F_cons (c : Puzzle) (fuel : Nat) (X Y : Variable)
    (rest : List (Variable × Variable)) (d : Domains) :
    ac3F c (fuel + 1) ((X, Y) :: rest) d =
      if (revise c X Y d).1 then
        if ((revise c X Y d).2 X).length = 0 then some (false, (revise c X Y d).2)
        else
          ac3F c fuel
            (rest ++ ((neighbors c X).filter (fun Z => Z != Y)).map (fun Z => (Z, X)))
            (revise c X Y d).2
      else ac3F c fuel rest (revise c X Y d).2 := rfl

/-! ## `ac3`: monotonicity and fuel sufficiency -/

theorem ac3F_subset (c : Puzzle) :
    ∀ (fuel : Nat) (q : List (Variable × Variable)) (d : Domains) (b : Bool)
      (d' : Domains), ac3F c fuel q d = some (b, d') → ∀ v, d' v ⊆ d v := by
  intro fuel
  induction fuel with
  | zero =>
    intro q d b d' h v
    match q with
    | [] =>
      rw [ac3F_nil] at h
      cases h
      exact fun _ h => h
    | p :: rest =>
      rw [ac3F_zero_cons] at h
      exact Option.noConfusion h
  | succ fuel ih =>
    intro q d b d' h v
    match q with
    | [] =>
      rw [ac3F_nil] at h
      cases h
      exact fun _ h => h
    | (X, Y) :: rest =>
      rw [ac3F_cons] at h
      by_cases hrev : (revise c X Y d).1 = true
      · rw [if_pos hrev] at h
        by_cases hzero : ((revise c X Y d).2 X).length = 0
        · rw [if_pos hzero] at h
          cases h
          exact revise_subset c X Y d v
        · rw [if_neg hzero] at h
          exact fun w hw => revise_subset c X Y d v (ih _ _ _ _ h v hw)
      · rw [if_neg hrev] at h
        exact fun w hw => revise_subset c X Y d v (ih _ _ _ _ h v hw)

theorem sum_map_updateD (d : Domains) (X : Variable) (ws : List Word) :
    ∀ (vs : List Variable), vs.Nodup → X ∈ vs →
      (vs.map (fun v => (updateD d X ws v).length)).sum + (d X).length
        = (vs.map (fun v => (d v).length)).sum + ws.length := by
  intro vs
  induction vs with
  | nil => intro _ h; cases h
  | cons y ys ih =>
    intro hnd hX
    have hy : y ∉ ys := (List.nodup_cons.1 hnd).1
    have hnd' : ys.Nodup := (List.nodup_cons.1 hnd).2
    simp only [List.map_cons, List.sum_cons]
    rcases List.mem_cons.1 hX with rfl | hmem
    · have hmap : ys.map (fun v => (updateD d X ws v).length)
          = ys.map (fun v => (d v).length) :=
        List.map_congr_left (fun v hv => by
          have hvX : v ≠ X := fun h => hy (h ▸ hv)
          simp [updateD_apply, hvX])
      have hXX : updateD d X ws X = ws := by simp [updateD_apply]
      rw [hmap, hXX]
      omega
    · have hyX : y ≠ X := fun h => hy (h ▸ hmem)
      have hIH := ih hnd' hmem
      have hyy : updateD d X ws y = d y := by simp [updateD_apply, hyX]
      rw [hyy]
      omega

theorem ac3F_isSome (c : Puzzle) (hnd : c.vars.Nodup) :
    ∀ (fuel : Nat) (q : List (Variable × Variable)) (d : Domains),
      (∀ p ∈ q, p.1 ∈ c.vars) →
      q.length + totalSize c d * c.vars.length < fuel →
      (ac3F c fuel q d).isSome = true := by
  intro fuel
  induction fuel with
  | zero => intro q d _ hlt; omega
  | succ fuel ih =>
    intro q d hq hlt
    match q with
    | [] => rw [ac3F_nil]; rfl
    | (X, Y) :: rest =>
      have hX : X ∈ c.vars := hq (X, Y) (List.mem_cons_self _ _)
      rw [ac3F_cons]
      by_cases hrev : (revise c X Y d).1 = true
      · rw [if_pos hrev]
        by_cases hzero : ((revise c X Y d).2 X).length = 0
        · rw [if_pos hzero]; rfl
        · rw [if_neg hzero]
          obtain ⟨i, j, hov⟩ : ∃ i j, c.overlaps X Y = some (i, j) := by
            match hov : c.overlaps X Y with
            | none => rw [revise_none hov] at hrev; cases hrev
            | some (i, j) => exact ⟨i, j, rfl⟩
          have h2 := revise_some (d := d) hov
          obtain ⟨w, hw, hwf⟩ := List.any_eq_true.1 (by rw [h2] at hrev; exact hrev)
          have hflen : ((d X).filter
              (fun w => (d Y).any (fun v => w.getD i ' ' == v.getD j ' '))).length
              < (d X).length :=
            length_filter_lt_of_mem hw (by simpa using hwf)
          have hts := sum_map_updateD d X
            ((d X).filter (fun w => (d Y).any (fun v => w.getD i ' ' == v.getD j ' ')))
            c.vars hnd hX
          apply ih
          · intro p hp
            rcases List.mem_append.1 hp with h | h
            · exact hq p (List.mem_cons_of_mem _ h)
            · obtain ⟨Z, hZ, rfl⟩ := List.mem_map.1 h
              exact (mem_neighbors.1 (List.mem_of_mem_filter hZ)).1
          · rw [h2]
            simp only
            rw [List.length_append, List.length_map]
            have hnb : (neighbors c X).length ≤ c.vars.length := by
              unfold neighbors
              exact List.length_filter_le _ _
            have hfl : ((neighbors c X).filter (fun Z => Z != Y)).length
                ≤ c.vars.length :=
              le_trans (List.length_filter_le _ _) hnb
            have hT : totalSize c (updateD d X ((d X).filter
                (fun w => (d Y).any (fun v => w.getD i ' ' == v.getD j ' ')))) + 1
                ≤ totalSize c d := by
              have h3 : totalSize c (updateD d X ((d X).filter
                  (fun w => (d Y).any (fun v => w.getD i ' ' == v.getD j ' '))))
                  + (d X).length
                  = totalSize c d + ((d X).filter
                    (fun w => (d Y).any (fun v => w.getD i ' ' == v.getD j ' '))).length :=
                hts
              omega
            have hmul := Nat.mul_le_mul hT (Nat.le_refl c.vars.length)
            rw [Nat.succ_mul] at hmul
            have hql : ((X, Y) :: rest).length = rest.length + 1 := List.length_cons _ _
            rw [hql] at hlt
            omega
      · rw [if_neg hrev]
        rw [revise_false_eq (by simpa using hrev)]
        apply ih
        · exact fun p hp => hq p (List.mem_cons_of_mem _ hp)
        · simp only [List.length_cons] at hlt
          omega

/-! ## `ac3` soundness: the arc-consistency invariant -/

/-- Well-formedness of the puzzle structure (from the spec: overlaps are
"precomputed once from geometry" for unordered pairs, so the ordered map is
mirror-symmetric): `overlaps[y, x]` is `overlaps[x, y]` with the offsets
swapped. -/
def OverlapSym (c : Puzzle) : Prop :=
  ∀ x ∈ c.vars, ∀ y ∈ c.vars,
    c.overlaps y x = (c.overlaps x y).map (fun p => (p.2, p.1))

/-- Well-formedness of the puzzle structure: a slot does not overlap
itself (overlaps exist only between crossing pairs of distinct slots). -/
def OverlapIrrefl (c : Puzzle) : Prop :=
  ∀ x ∈ c.vars, c.overlaps x x = none

instance decOverlapSym (c : Puzzle) : Decidable (OverlapSym c) := by
  unfold OverlapSym
  infer_instance

instance decOverlapIrrefl (c : Puzzle) : Decidable (OverlapIrrefl c) := by
  unfold OverlapIrrefl
  infer_instance

/-- Every word of `x`'s domain has a partner in `y`'s domain matching at
offsets `(i, j)`. -/
def supportedOn (d : Domains) (x y : Variable) (i j : Nat) : Prop :=
  ∀ w ∈ d x, ∃ v ∈ d y, w.getD i ' ' = v.getD j ' '

/-- The arc `(x, y)` is consistent in `d` (vacuously if there is no
overlap). -/
def arcOK (c : Puzzle) (d : Domains) (x y : Variable) : Prop :=
  ∀ i j, c.overlaps x y = some (i, j) → supportedOn d x y i j

theorem ac3F_sound (c : Puzzle) (hsym : OverlapSym c) (hirr : OverlapIrrefl c) :
    ∀ (fuel : Nat) (q : List (Variable × Variable)) (d d' : Domains),
      (∀ p ∈ q, p.1 ∈ c.vars ∧ p.2 ∈ c.vars) →
      (∀ x ∈ c.vars, ∀ y ∈ neighbors c x, (x, y) ∉ q → arcOK c d x y) →
      ac3F c fuel q d = some (true, d') →
      ∀ x ∈ c.vars, ∀ y ∈ neighbors c x, arcOK c d' x y := by
  intro fuel
  induction fuel with
  | zero =>
    intro q d d' hq hInv h x hx y hy
    cases q with
    | nil =>
      rw [ac3F_nil] at h
      cases h
      exact hInv x hx y hy (List.not_mem_nil _)
    | cons p rest =>
      rw [ac3F_zero_cons] at h
      exact Option.noConfusion h
  | succ fuel ih =>
    intro q d d' hq hInv h
    cases q with
    | nil =>
      rw [ac3F_nil] at h
      cases h
      exact fun x hx y hy => hInv x hx y hy (List.not_mem_nil _)
    | cons p rest =>
      obtain ⟨X, Y⟩ := p
      have hXv : X ∈ c.vars := (hq (X, Y) (List.mem_cons_self _ _)).1
      have hYv : Y ∈ c.vars := (hq (X, Y) (List.mem_cons_self _ _)).2
      rw [ac3F_cons] at h
      by_cases hrev : (revise c X Y d).1 = true
      · rw [if_pos hrev] at h
        by_cases hzero : ((revise c X Y d).2 X).length = 0
        · rw [if_pos hzero] at h
          simp at h
        · rw [if_neg hzero] at h
          obtain ⟨i, j, hov⟩ : ∃ i j, c.overlaps X Y = some (i, j) := by
            match hov : c.overlaps X Y with
            | none => rw [revise_none hov] at hrev; cases hrev
            | some (i, j) => exact ⟨i, j, rfl⟩
          have hXY : X ≠ Y := by
            intro he
            rw [he, hirr Y hYv] at hov
            cases hov
          have h2 := revise_some (d := d) hov
          rw [h2] at h
          simp only at h
          apply ih _ _ _ _ _ h
          · intro p hp
            rcases List.mem_append.1 hp with hp | hp
            · exact hq p (List.mem_cons_of_mem _ hp)
            · obtain ⟨Z, hZ, rfl⟩ := List.mem_map.1 hp
              exact ⟨(mem_neighbors.1 (List.mem_of_mem_filter hZ)).1, hXv⟩
          · -- the invariant is preserved by the revision of X against Y
            intro u hu v hv hnq
            have hnrest : (u, v) ∉ rest := fun hr =>
              hnq (List.mem_append.2 (Or.inl hr))
            intro i' j' hov' w hw
            by_cases huX : u = X
            · rw [huX] at hov' hw hnrest hv hu
              rw [updateD_apply, if_pos rfl] at hw
              by_cases hvY : v = Y
              · rw [hvY] at hov'
                rw [hov] at hov'
                injection Option.some.inj hov' with hi hj
                obtain ⟨-, hsup⟩ := List.mem_filter.1 hw
                obtain ⟨v', hv', hbeq⟩ := List.any_eq_true.1 hsup
                rw [hvY]
                refine ⟨v', ?_, ?_⟩
                · rw [updateD_apply, if_neg (Ne.symm hXY)]
                  exact hv'
                · rw [← hi, ← hj]
                  simpa using hbeq
              · have hnv : (X, v) ∉ ((X, Y) :: rest) := by
                  intro hmem
                  rcases List.mem_cons.1 hmem with he | hr
                  · exact hvY (Prod.ext_iff.1 he).2
                  · exact hnrest hr
                have hvX : v ≠ X := (mem_neighbors.1 hv).2.1
                have hold := hInv X hu v hv hnv i' j' hov' w
                  (List.mem_of_mem_filter hw)
                obtain ⟨v', hv', heq⟩ := hold
                refine ⟨v', ?_, heq⟩
                rw [updateD_apply, if_neg hvX]
                exact hv'
            · rw [updateD_apply, if_neg huX] at hw
              by_cases hvX : v = X
              · rw [hvX] at hov' hv hnq hnrest
                rw [hvX]
                -- u is a neighbor of X; if u ≠ Y the arc (u, X) was just
                -- requeued, and the (Y, X) arc survives because every word
                -- removed from X's domain supported nothing in Y's domain
                by_cases huY : u = Y
                · have hsymYX : c.overlaps u X = some (j, i) := by
                    rw [huY, hsym X hXv Y hYv, hov]
                    rfl
                  rw [hsymYX] at hov'
                  injection Option.some.inj hov' with hi' hj'
                  have hYX : (u, X) ∉ ((X, Y) :: rest) := by
                    intro hm
                    rcases List.mem_cons.1 hm with he | hr
                    · exact huX (Prod.ext_iff.1 he).1
                    · exact hnrest hr
                  obtain ⟨u', hu', heq⟩ := hInv u hu X hv hYX j i hsymYX w hw
                  have hwY : w ∈ d Y := by
                    rw [← huY]
                    exact hw
                  refine ⟨u', ?_, ?_⟩
                  · rw [updateD_apply, if_pos rfl]
                    refine List.mem_filter.2 ⟨hu', List.any_eq_true.2 ⟨w, hwY, ?_⟩⟩
                    simpa using heq.symm
                  · rw [← hi', ← hj']
                    exact heq
                · exfalso
                  have hXu : (c.overlaps X u).isSome := by
                    rw [hsym u hu X hXv, hov']
                    rfl
                  have hunb : u ∈ neighbors c X := mem_neighbors.2 ⟨hu, huX, hXu⟩
                  apply hnq
                  refine List.mem_append.2 (Or.inr (List.mem_map.2 ⟨u, ?_, rfl⟩))
                  refine List.mem_filter.2 ⟨hunb, ?_⟩
                  simpa [bne_iff_ne] using huY
              · have hnv : (u, v) ∉ ((X, Y) :: rest) := by
                  intro hmem
                  rcases List.mem_cons.1 hmem with he | hr
                  · exact huX (Prod.ext_iff.1 he).1
                  · exact hnrest hr
                have hold := hInv u hu v hv hnv i' j' hov' w hw
                obtain ⟨v', hv', heq⟩ := hold
                refine ⟨v', ?_, heq⟩
                rw [updateD_apply, if_neg hvX]
                exact hv'
      · rw [if_neg hrev] at h
        rw [revise_false_eq (by simpa using hrev)] at h
        apply ih _ _ _ _ _ h
        · exact fun p hp => hq p (List.mem_cons_of_mem _ hp)
        · intro u hu v hv hnq
          by_cases huv : (u, v) = (X, Y)
          · injection huv with hu1 hv1
            rw [hu1, hv1]
            intro i' j' hov' w hw
            have hfalse : (revise c X Y d).1 = false := by
              simpa using hrev
            rw [revise_some hov'] at hfalse
            simp only at hfalse
            rw [List.any_eq_false] at hfalse
            have hsup : ((d Y).any (fun v => w.getD i' ' ' == v.getD j' ' ')) = true := by
              simpa using hfalse w hw
            obtain ⟨v', hv', hbeq⟩ := List.any_eq_true.1 hsup
            exact ⟨v', hv', by simpa using hbeq⟩
          · exact hInv u hu v hv
              (fun hm => (List.mem_cons.1 hm).elim (fun he => huv he) hnq)

/-! ## Assignment lookup -/

theorem lookupA_eq_some :
    ∀ (a : Assignment), (a.map Prod.fst).Nodup →
      ∀ {v : Variable} {w : Word}, (v, w) ∈ a → lookupA a v = some w := by
  intro a
  induction a with
  | nil => intro _ v w h; cases h
  | cons kv rest ih =>
    intro hnd v w hmem
    obtain ⟨k, u⟩ := kv
    have hnd' : k ∉ rest.map Prod.fst ∧ (rest.map Prod.fst).Nodup := by
      rw [List.map_cons, List.nodup_cons] at hnd
      exact hnd
    have hk : k ∉ rest.map Prod.fst := hnd'.1
    have hnd2 : (rest.map Prod.fst).Nodup := hnd'.2
    by_cases hkv : k = v
    · rcases List.mem_cons.1 hmem with he | hm
      · injection he with h1 h2
        subst h1; subst h2
        simp [lookupA, List.find?_cons_of_pos]
      · exfalso
        apply hk
        rw [hkv]
        exact List.mem_map.2 ⟨(v, w), hm, rfl⟩
    · have hstep : lookupA ((k, u) :: rest) v = lookupA rest v := by
        unfold lookupA
        rw [List.find?_cons_of_neg]
        simpa using hkv
      rw [hstep]
      rcases List.mem_cons.1 hmem with he | hm
      · injection he with h1 h2
        exact absurd h1.symm hkv
      · exact ih hnd2 hm

/-! ## `consistent`: what a `true` answer guarantees -/

theorem consistentFrom_true {c : Puzzle} {a : Assignment} :
    ∀ (rest : List (Variable × Word)) (distinct : List Word),
      consistentFrom c a distinct rest = true → distinct.Nodup →
      (distinct ++ rest.map Prod.snd).Nodup
      ∧ (∀ kv ∈ rest, kv.2.length = kv.1.length)
      ∧ (∀ kv ∈ rest, ∀ nb ∈ neighbors c kv.1, ∀ nw, lookupA a nb = some nw →
          ∀ i j, c.overlaps kv.1 nb = some (i, j) →
            kv.2.getD i ' ' = nw.getD j ' ') := by
  intro rest
  induction rest with
  | nil =>
    intro distinct _ hnd
    refine ⟨by simpa using hnd, ?_, ?_⟩
    · intro kv hkv; cases hkv
    · intro kv hkv; cases hkv
  | cons kv rest ih =>
    intro distinct h hnd
    obtain ⟨var, w⟩ := kv
    rw [consistentFrom] at h
    by_cases hc : distinct.contains w
    · rw [if_pos hc] at h
      exact Bool.noConfusion h
    · rw [if_neg hc] at h
      by_cases hlen : w.length != var.length
      · rw [if_pos hlen] at h
        exact Bool.noConfusion h
      · rw [if_neg hlen] at h
        by_cases hall : ((neighbors c var).all (fun nb =>
            match lookupA a nb with
            | none => true
            | some nw =>
              match c.overlaps var nb with
              | some (i, j) => w.getD i ' ' == nw.getD j ' '
              | none => true)) = true
        · rw [if_pos hall] at h
          have hwd : w ∉ distinct := by simpa using hc
          have hndw : (distinct ++ [w]).Nodup := by
            simp [List.nodup_append, hnd, hwd]
          obtain ⟨hA, hB, hC⟩ := ih (distinct ++ [w]) h hndw
          refine ⟨?_, ?_, ?_⟩
          · rw [List.append_assoc] at hA
            simpa using hA
          · intro kv hkv
            rcases List.mem_cons.1 hkv with rfl | hm
            · simpa using hlen
            · exact hB kv hm
          · intro kv hkv nb hnb nw hnw i j hovl
            rcases List.mem_cons.1 hkv with rfl | hm
            · have hone := List.all_eq_true.1 hall nb hnb
              rw [hnw] at hone
              simp only at hone
              rw [hovl] at hone
              simpa using hone
            · exact hC kv hm nb hnb nw hnw i j hovl
        · rw [if_neg hall] at h
          exact Bool.noConfusion h

theorem consistent_props {c : Puzzle} {a : Assignment}
    (h : consistent c a = true) :
    (a.map Prod.snd).Nodup
    ∧ (∀ kv ∈ a, kv.2.length = kv.1.length)
    ∧ (∀ kv ∈ a, ∀ nb ∈ neighbors c kv.1, ∀ nw, lookupA a nb = some nw →
        ∀ i j, c.overlaps kv.1 nb = some (i, j) →
          kv.2.getD i ' ' = nw.getD j ' ') := by
  have := consistentFrom_true (c := c) (a := a) a [] h List.nodup_nil
  simpa using this

/-! ## `select_unassigned_variable` returns an unassigned variable -/

theorem inner_erase_foldl (var : Variable) :
    ∀ (keys : List Variable), keys.Nodup → ∀ (acc : List Variable),
      keys.foldl (fun acc2 key => if var = key then acc2.erase var else acc2) acc
        = if var ∈ keys then acc.erase var else acc := by
  intro keys
  induction keys with
  | nil => intro _ acc; simp
  | cons k ks ih =>
    intro hnd acc
    have hk : k ∉ ks := (List.nodup_cons.1 hnd).1
    have h2 : ks.Nodup := (List.nodup_cons.1 hnd).2
    simp only [List.foldl_cons]
    by_cases hv : var = k
    · rw [if_pos hv, ih h2]
      have hnin : var ∉ ks := by rw [hv]; exact hk
      rw [if_neg hnin, if_pos (List.mem_cons.2 (Or.inl hv))]
    · rw [if_neg hv, ih h2]
      by_cases hm : var ∈ ks
      · rw [if_pos hm, if_pos (List.mem_cons.2 (Or.inr hm))]
      · rw [if_neg hm, if_neg (fun hmm =>
          (List.mem_cons.1 hmm).elim hv hm)]

theorem mem_outer_foldl (keys : List Variable) (hkeys : keys.Nodup) :
    ∀ (l : List Variable) (acc : List Variable), acc.Nodup → ∀ (v : Variable),
      (v ∈ l.foldl
        (fun acc var => keys.foldl
          (fun acc2 key => if var = key then acc2.erase var else acc2) acc)
        acc)
      ↔ v ∈ acc ∧ ¬(v ∈ keys ∧ v ∈ l) := by
  intro l
  induction l with
  | nil =>
    intro acc _ v
    simp
  | cons x xs ih =>
    intro acc hacc v
    simp only [List.foldl_cons]
    rw [inner_erase_foldl x keys hkeys]
    by_cases hx : x ∈ keys
    · rw [if_pos hx]
      rw [ih (acc.erase x) (hacc.erase x) v]
      rw [hacc.mem_erase_iff]
      constructor
      · rintro ⟨⟨hne, hmem⟩, hrest⟩
        refine ⟨hmem, ?_⟩
        rintro ⟨hkv, hor⟩
        rcases List.mem_cons.1 hor with he | hxs
        · exact hne he
        · exact hrest ⟨hkv, hxs⟩
      · rintro ⟨hmem, hno⟩
        refine ⟨⟨?_, hmem⟩, ?_⟩
        · intro he
          exact hno ⟨he ▸ hx, List.mem_cons.2 (Or.inl he)⟩
        · rintro ⟨hkv, hxs⟩
          exact hno ⟨hkv, List.mem_cons.2 (Or.inr hxs)⟩
    · rw [if_neg hx]
      rw [ih acc hacc v]
      constructor
      · rintro ⟨hmem, hrest⟩
        refine ⟨hmem, ?_⟩
        rintro ⟨hkv, hor⟩
        rcases List.mem_cons.1 hor with he | hxs
        · exact hx (he ▸ hkv)
        · exact hrest ⟨hkv, hxs⟩
      · rintro ⟨hmem, hno⟩
        refine ⟨hmem, ?_⟩
        rintro ⟨hkv, hxs⟩
        exact hno ⟨hkv, List.mem_cons.2 (Or.inr hxs)⟩

theorem mem_unassignedVars {c : Puzzle} {a : Assignment}
    (hv : c.vars.Nodup) (hk : (a.map Prod.fst).Nodup) (x : Variable) :
    x ∈ unassignedVars c a ↔ x ∈ c.vars ∧ x ∉ a.map Prod.fst := by
  unfold unassignedVars
  rw [mem_outer_foldl (a.map Prod.fst) hk c.vars c.vars hv x]
  constructor
  · rintro ⟨hmem, hno⟩
    exact ⟨hmem, fun hin => hno ⟨hin, hmem⟩⟩
  · rintro ⟨hmem, hnin⟩
    exact ⟨hmem, fun h => hnin h.1⟩

theorem select_mem {c : Puzzle} {d : Domains} {a : Assignment} {var : Variable}
    (h : select_unassigned_variable c d a = some var) :
    var ∈ unassignedVars c a := by
  have hmemS : ∀ t : Variable × Nat × Nat,
      t ∈ selSorted c d a → t.1 ∈ unassignedVars c a := by
    intro t ht
    obtain ⟨v0, hv0, rfl⟩ := List.mem_map.1 (mem_sortS.1 ht)
    exact hv0
  have hmemT : ∀ t : Variable × Nat × Nat,
      t ∈ selTied c d a → t ∈ selSorted c d a := by
    intro t ht
    unfold selTied at ht
    generalize hs : selSorted c d a = S at ht ⊢
    cases S with
    | nil => exact absurd ht (by simp)
    | cons p rest =>
      rcases List.mem_cons.1 ht with rfl | hm
      · exact List.mem_cons_self _ _
      · obtain ⟨pq, hpq, hsome⟩ := List.mem_filterMap.1 hm
        have hz := (List.of_mem_zip hpq).2
        by_cases hcq : pq.1.2.1 == pq.2.2.1
        · rw [if_pos hcq] at hsome
          injection hsome with h1
          simp only [List.tail_cons] at hz
          exact List.mem_cons_of_mem _ (h1 ▸ hz)
        · rw [if_neg hcq] at hsome
          cases hsome
  unfold select_unassigned_variable at h
  split at h
  · exact Option.noConfusion h
  · next p heq =>
    injection h with h1
    refine h1 ▸ hmemS p ?_
    rw [heq]
    exact List.mem_cons_self _ _
  · next p q rest2 heq =>
    split at h
    · injection h with h1
      refine h1 ▸ hmemS p ?_
      rw [heq]
      exact List.mem_cons_self _ _
    · split at h
      · exact Option.noConfusion h
      · next t ts heq2 =>
        injection h with h1
        refine h1 ▸ hmemS t (hmemT t ?_)
        apply mem_sortS.1
        rw [heq2]
        exact List.mem_cons_self _ _

/-! ## `order_domain_values` draws from the domain -/

theorem mem_of_mem_odv {c : Puzzle} {d : Domains} {var : Variable}
    {a : Assignment} {w : Word} (h : w ∈ order_domain_values c d var a) :
    w ∈ d var := by
  unfold order_domain_values at h
  obtain ⟨p, hp, rfl⟩ := List.mem_map.1 h
  obtain ⟨value, hval, rfl⟩ := List.mem_map.1 (mem_sortS.1 hp)
  exact hval

/-! ## The search phase never touches the domain store -/

theorem btLoop_frame {c : Puzzle}
    {bt : Domains → Assignment → Option (Option Assignment) × Domains}
    {var : Variable} {a : Assignment}
    (hbt : ∀ d' a', (bt d' a').2 = d') :
    ∀ (l : List Word) (d : Domains), (btLoop c bt var a l d).2 = d := by
  intro l
  induction l with
  | nil => intro d; rfl
  | cons value rest ih =>
    intro d
    simp only [btLoop]
    split
    · rcases hbb : bt d (a ++ [(var, value)]) with ⟨r0, d2⟩
      have hd2 : d2 = d := by
        have := hbt d (a ++ [(var, value)])
        rw [hbb] at this
        exact this
      rcases r0 with _ | r1
      · simpa using hd2
      · rcases r1 with _ | r
        · show (btLoop c bt var a rest d2).2 = d
          rw [ih d2, hd2]
        · simpa using hd2
    · exact ih d

theorem backtrack_frame (c : Puzzle) :
    ∀ (fuel : Nat) (d : Domains) (a : Assignment),
      (backtrack c fuel d a).2 = d := by
  intro fuel
  induction fuel with
  | zero =>
    intro d a
    rw [backtrack]
    split
    · rfl
    · rfl
  | succ fuel ih =>
    intro d a
    rw [backtrack]
    split
    · rfl
    · cases hsel : select_unassigned_variable c d a with
      | none => simp only [hsel]
      | some var =>
        simp only [hsel]
        exact btLoop_frame (fun d' a' => ih d' a') _ d

/-! ## `backtrack`: termination and soundness -/

theorem keys_length_le {c : Puzzle} {a : Assignment}
    (hks : ∀ kv ∈ a, kv.1 ∈ c.vars) (hnd : (a.map Prod.fst).Nodup) :
    a.length ≤ c.vars.length := by
  have hsub : a.map Prod.fst ⊆ c.vars := by
    intro x hx
    obtain ⟨kv, hkv, rfl⟩ := List.mem_map.1 hx
    exact hks kv hkv
  have := (hnd.subperm hsub).length_le
  simpa using this

theorem extend_assignment_wf {c : Puzzle} {a : Assignment} {var : Variable}
    (value : Word) (hks : ∀ kv ∈ a, kv.1 ∈ c.vars)
    (hnd : (a.map Prod.fst).Nodup)
    (hvv : var ∈ c.vars) (hvn : var ∉ a.map Prod.fst) :
    (∀ kv ∈ a ++ [(var, value)], kv.1 ∈ c.vars)
    ∧ ((a ++ [(var, value)]).map Prod.fst).Nodup := by
  constructor
  · intro kv hkv
    rcases List.mem_append.1 hkv with hm | hm
    · exact hks kv hm
    · have : kv = (var, value) := by simpa using hm
      rw [this]
      exact hvv
  · rw [List.map_append]
    rw [List.nodup_append]
    refine ⟨hnd, by simp, ?_⟩
    intro x hx
    simp only [List.map_cons, List.map_nil, List.mem_singleton]
    intro he
    exact hvn (he ▸ hx)

theorem btLoop_total {c : Puzzle}
    {bt : Domains → Assignment → Option (Option Assignment) × Domains}
    {var : Variable} {a : Assignment}
    (hbt : ∀ (d' : Domains) (value : Word),
      (bt d' (a ++ [(var, value)])).1 ≠ none) :
    ∀ (l : List Word) (d : Domains), (btLoop c bt var a l d).1 ≠ none := by
  intro l
  induction l with
  | nil => intro d h; cases h
  | cons value rest ih =>
    intro d
    simp only [btLoop]
    split
    · rcases hbb : bt d (a ++ [(var, value)]) with ⟨r0, d2⟩
      rcases r0 with _ | r1
      · have hne := hbt d value
        rw [hbb] at hne
        exact absurd rfl hne
      · rcases r1 with _ | r
        · exact ih d2
        · intro h; cases h
    · exact ih d

theorem backtrack_total (c : Puzzle) (hv : c.vars.Nodup) :
    ∀ (fuel : Nat) (a : Assignment) (d : Domains),
      (∀ kv ∈ a, kv.1 ∈ c.vars) → (a.map Prod.fst).Nodup →
      c.vars.length - a.length ≤ fuel →
      (backtrack c fuel d a).1 ≠ none := by
  intro fuel
  induction fuel with
  | zero =>
    intro a d hks hnd hfuel
    rw [backtrack]
    split
    · intro h; cases h
    · next hcomp =>
      exfalso
      have hle := keys_length_le hks hnd
      have heq : a.length = c.vars.length := by omega
      exact hcomp (by simpa [assignment_complete] using heq)
  | succ fuel ih =>
    intro a d hks hnd hfuel
    rw [backtrack]
    split
    · intro h; cases h
    · cases hsel : select_unassigned_variable c d a with
      | none =>
        simp only [hsel]
        intro h; cases h
      | some var =>
        simp only [hsel]
        apply btLoop_total
        intro d' value
        have hvar := (mem_unassignedVars hv hnd var).1 (select_mem hsel)
        obtain ⟨hks2, hnd2⟩ := extend_assignment_wf value hks hnd hvar.1 hvar.2
        apply ih _ _ hks2 hnd2
        rw [List.length_append]
        simp only [List.length_singleton]
        omega

theorem btLoop_eq_solution {c : Puzzle}
    {bt : Domains → Assignment → Option (Option Assignment) × Domains}
    {var : Variable} {a : Assignment}
    (hframe : ∀ d' a', (bt d' a').2 = d') :
    ∀ (l : List Word) (d : Domains) (r : Assignment),
      (btLoop c bt var a l d).1 = some (some r) →
      ∃ value ∈ l, consistent c (a ++ [(var, value)]) = true
        ∧ (bt d (a ++ [(var, value)])).1 = some (some r) := by
  intro l
  induction l with
  | nil =>
    intro d r h
    simp only [btLoop] at h
    exact absurd h (by simp)
  | cons value rest ih =>
    intro d r h
    simp only [btLoop] at h
    by_cases hcons : consistent c (a ++ [(var, value)]) = true
    · rw [if_pos hcons] at h
      rcases hbb : bt d (a ++ [(var, value)]) with ⟨r0, d2⟩
      rw [hbb] at h
      have hd2 : d2 = d := by
        have := hframe d (a ++ [(var, value)])
        rw [hbb] at this
        exact this
      rcases r0 with _ | r1
      · simp at h
      · rcases r1 with _ | rr
        · rw [hd2] at h
          obtain ⟨value2, hv2, hc2, hb2⟩ := ih d r h
          exact ⟨value2, List.mem_cons_of_mem _ hv2, hc2, hb2⟩
        · simp only at h
          injection h with h1
          injection h1 with h2
          subst h2
          exact ⟨value, List.mem_cons_self _ _, hcons, by rw [hbb]⟩
    · rw [if_neg hcons] at h
      obtain ⟨value2, hv2, hc2, hb2⟩ := ih d r h
      exact ⟨value2, List.mem_cons_of_mem _ hv2, hc2, hb2⟩

theorem backtrack_sound (c : Puzzle) (hv : c.vars.Nodup) :
    ∀ (fuel : Nat) (a : Assignment) (d : Domains) (r : Assignment),
      (backtrack c fuel d a).1 = some (some r) →
      (∀ kv ∈ a, kv.1 ∈ c.vars) → (a.map Prod.fst).Nodup →
      assignment_complete c r = true
      ∧ (consistent c a = true → consistent c r = true)
      ∧ (r.map Prod.fst).Nodup
      ∧ (∀ kv ∈ r, kv.1 ∈ c.vars)
      ∧ (∀ kv ∈ r, kv ∈ a ∨ kv.2 ∈ d kv.1) := by
  intro fuel
  induction fuel with
  | zero =>
    intro a d r h hks hnd
    rw [backtrack] at h
    split at h
    · next hcomp =>
      simp only at h
      injection h with h1
      injection h1 with h2
      subst h2
      exact ⟨hcomp, fun hc => hc, hnd, hks, fun kv hkv => Or.inl hkv⟩
    · simp at h
  | succ fuel ih =>
    intro a d r h hks hnd
    rw [backtrack] at h
    split at h
    · next hcomp =>
      simp only at h
      injection h with h1
      injection h1 with h2
      subst h2
      exact ⟨hcomp, fun hc => hc, hnd, hks, fun kv hkv => Or.inl hkv⟩
    · cases hsel : select_unassigned_variable c d a with
      | none =>
        simp only [hsel] at h
        simp at h
      | some var =>
        simp only [hsel] at h
        have hvar := (mem_unassignedVars hv hnd var).1 (select_mem hsel)
        obtain ⟨value, hvl, hcons, hbt⟩ :=
          btLoop_eq_solution (fun d' a' => backtrack_frame c fuel d' a') _ d r h
        obtain ⟨hks2, hnd2⟩ := extend_assignment_wf value hks hnd hvar.1 hvar.2
        obtain ⟨h1, h2, h3, h4, h5⟩ := ih _ d r hbt hks2 hnd2
        refine ⟨h1, fun _ => h2 hcons, h3, h4, ?_⟩
        intro kv hkv
        rcases h5 kv hkv with hm | hm
        · rcases List.mem_append.1 hm with hm2 | hm2
          · exact Or.inl hm2
          · have hkveq : kv = (var, value) := by simpa using hm2
            right
            rw [hkveq]
            exact mem_of_mem_odv hvl
        · exact Or.inr hm

/-! ## `ac3` at the `solve` level -/

theorem mem_arcs_foldr (c : Puzzle) :
    ∀ (vs : List Variable) (p : Variable × Variable),
      (p ∈ vs.foldr
        (fun var acc => (neighbors c var).map (fun nb => (var, nb)) ++ acc) [])
      ↔ ∃ x ∈ vs, ∃ y ∈ neighbors c x, p = (x, y) := by
  intro vs
  induction vs with
  | nil => intro p; simp
  | cons v rest ih =>
    intro p
    simp only [List.foldr_cons, List.mem_append, ih, List.mem_map, List.mem_cons]
    constructor
    · rintro (⟨nb, hnb, rfl⟩ | ⟨x, hx, y, hy, rfl⟩)
      · exact ⟨v, Or.inl rfl, nb, hnb, rfl⟩
      · exact ⟨x, Or.inr hx, y, hy, rfl⟩
    · rintro ⟨x, hx | hx, y, hy, rfl⟩
      · exact Or.inl ⟨y, hx ▸ hy, by rw [hx]⟩
      · exact Or.inr ⟨x, hx, y, hy, rfl⟩

theorem mem_initialArcs {c : Puzzle} {p : Variable × Variable} :
    p ∈ initialArcs c ↔ ∃ x ∈ c.vars, ∃ y ∈ neighbors c x, p = (x, y) :=
  mem_arcs_foldr c c.vars p

theorem initialArcs_comp_mem {c : Puzzle} {p : Variable × Variable}
    (hp : p ∈ initialArcs c) : p.1 ∈ c.vars ∧ p.2 ∈ c.vars := by
  obtain ⟨x, hx, y, hy, rfl⟩ := mem_initialArcs.1 hp
  exact ⟨hx, (mem_neighbors.1 hy).1⟩

theorem ac3_isSome (c : Puzzle) (hnd : c.vars.Nodup) (d : Domains) :
    (ac3 c d).isSome = true := by
  unfold ac3 ac3Fuel
  apply ac3F_isSome c hnd
  · intro p hp
    exact (initialArcs_comp_mem hp).1
  · omega

theorem ac3_subset {c : Puzzle} {d : Domains} {b : Bool} {d2 : Domains}
    (h : ac3 c d = some (b, d2)) (v : Variable) : d2 v ⊆ d v :=
  ac3F_subset c _ _ _ _ _ h v

theorem ac3_sound {c : Puzzle} {d : Domains} {d2 : Domains}
    (hsym : OverlapSym c) (hirr : OverlapIrrefl c)
    (h : ac3 c d = some (true, d2)) :
    ∀ x ∈ c.vars, ∀ y ∈ neighbors c x, arcOK c d2 x y := by
  apply ac3F_sound c hsym hirr _ _ _ _ _ _ h
  · intro p hp
    exact initialArcs_comp_mem hp
  · intro x hx y hy hnq
    exact absurd (mem_initialArcs.2 ⟨x, hx, y, hy, rfl⟩) hnq

/-! ## `solve` plumbing -/

theorem solve_eq_some {c : Puzzle} {r : Assignment} (h : solve c = some r) :
    ∃ b d2, ac3 c (enforce_node_consistency c (initDomains c)) = some (b, d2)
      ∧ (backtrack c c.vars.length d2 []).1 = some (some r) := by
  have hjoin : solveR c = some (some r) := Option.join_eq_some.1 h
  unfold solveR at hjoin
  rcases hres : ac3 c (enforce_node_consistency c (initDomains c)) with _ | ⟨b, d2⟩
  · rw [hres] at hjoin
    cases hjoin
  · rw [hres] at hjoin
    exact ⟨b, d2, rfl, hjoin⟩

theorem backtrackC_pos (c : Puzzle) (fuel : Nat) (d : Domains)
    (a : Assignment) : 1 ≤ backtrackC c fuel d a := by
  rw [backtrackC.eq_def]
  dsimp only
  by_cases hc : assignment_complete c a = true
  · rw [if_pos hc]
  · rw [if_neg hc]
    cases fuel with
    | zero => exact Nat.le_refl 1
    | succ fuel2 =>
      cases select_unassigned_variable c d a with
      | none => exact Nat.le_refl 1
      | some var => exact Nat.le_add_right 1 _

theorem solve_none_of_post_empty (c : Puzzle) (v : Variable)
    (hv : c.vars.Nodup) (hmem : v ∈ c.vars) (b : Bool) (d2 : Domains)
    (hres : ac3 c (enforce_node_consistency c (initDomains c)) = some (b, d2))
    (hd2v : d2 v = []) : solve c = none := by
  have hterm := backtrack_total c hv c.vars.length [] d2
    (fun kv hkv => absurd hkv (List.not_mem_nil kv)) (by simp) (by simp)
  rcases hbt : (backtrack c c.vars.length d2 []).1 with _ | r0
  · exact absurd hbt hterm
  · cases r0 with
    | some r =>
      exfalso
      obtain ⟨h1, h2, h3, h4, h5⟩ := backtrack_sound c hv c.vars.length [] d2 r
        hbt (fun kv hkv => absurd hkv (List.not_mem_nil kv)) (by simp)
      have hrlen : r.length = c.vars.length := by
        simpa [assignment_complete] using h1
      have hveq : v ∈ r.map Prod.fst := by
        by_contra hnv
        have hsub2 : r.map Prod.fst ⊆ c.vars.erase v := by
          intro x hx
          obtain ⟨kv, hkv, rfl⟩ := List.mem_map.1 hx
          have hxv : kv.1 ≠ v := fun he => hnv (he ▸ hx)
          exact (List.mem_erase_of_ne hxv).2 (h4 kv hkv)
        have hle := (h3.subperm hsub2).length_le
        rw [List.length_map, List.length_erase_of_mem hmem] at hle
        have hpos := List.length_pos_of_mem hmem
        omega
      obtain ⟨kv, hkv, hfst⟩ := List.mem_map.1 hveq
      rcases h5 kv hkv with hm | hm
      · exact absurd hm (List.not_mem_nil kv)
      · rw [hfst, hd2v] at hm
        exact absurd hm (List.not_mem_nil kv.2)
    | none =>
      have hsR : solveR c = some none := by
        unfold solveR
        rw [hres]
        exact hbt
      unfold solve
      rw [hsR]
      rfl

/-! ## Claim theorems -/

/-- C1 (counterexample): on puzzle `P1` node consistency empties the only
slot's domain, yet `solve()` still invokes `backtrack` (once) — the code
discards `ac3()`'s boolean result, so backtracking is not skipped as the
claim states. -/
theorem solve_invokes_backtrack_on_empty_domain :
    enforce_node_consistency P1 (initDomains P1) V1 = []
    ∧ solveBacktrackCalls P1 = 1 := by decide

/-- C1 (amended): `solve()` invokes `backtrack` unconditionally — `ac3()`'s
boolean result is discarded — and for every puzzle in which node
consistency or the subsequent `ac3()` run leaves some slot's domain
empty, `solve()` still returns the no-solution signal (`None`). -/
theorem solve_no_solution_despite_backtrack (c : Puzzle)
    (hv : c.vars.Nodup) :
    1 ≤ solveBacktrackCalls c
    ∧ ∀ v ∈ c.vars,
        (enforce_node_consistency c (initDomains c) v = []
          ∨ ac3Dom c (enforce_node_consistency c (initDomains c)) v = []) →
        solve c = none := by
  have hsome := ac3_isSome c hv (enforce_node_consistency c (initDomains c))
  rcases hres : ac3 c (enforce_node_consistency c (initDomains c)) with _ | ⟨b, d2⟩
  · rw [hres] at hsome
    cases hsome
  · constructor
    · unfold solveBacktrackCalls
      rw [hres]
      exact backtrackC_pos c c.vars.length d2 []
    · intro v hmem hempty
      have hd2v : d2 v = [] := by
        rcases hempty with hnc | hac
        · have hsub := ac3_subset hres v
          rw [hnc] at hsub
          exact List.eq_nil_iff_forall_not_mem.2
            (fun w hw => (List.not_mem_nil w) (hsub hw))
        · have hdom : ac3Dom c (enforce_node_consistency c (initDomains c)) = d2 := by
            unfold ac3Dom
            rw [hres, Option.getD_some]
          rw [hdom] at hac
          exact hac
      exact solve_none_of_post_empty c v hv hmem b d2 hres hd2v

/-- C1 (witness): backtrack is invoked and no solution is reported both on
`P1`, where node consistency empties the slot's domain, and on `P5`,
where node consistency leaves every domain nonempty and `ac3` empties
one. -/
theorem solve_no_solution_despite_backtrack_witness :
    (P1.vars.Nodup ∧ V1 ∈ P1.vars
      ∧ enforce_node_consistency P1 (initDomains P1) V1 = [])
    ∧ (P5.vars.Nodup ∧ X6 ∈ P5.vars
      ∧ enforce_node_consistency P5 (initDomains P5) X6 ≠ []
      ∧ ac3Dom P5 (enforce_node_consistency P5 (initDomains P5)) X6 = [])
    ∧ 1 ≤ solveBacktrackCalls P1
    ∧ solve P1 = none ∧ solve P5 = none :=
  ⟨⟨by decide, by decide, by decide⟩,
   ⟨by decide, by decide, by decide, by decide⟩,
   (solve_no_solution_despite_backtrack P1 (by decide)).1,
   (solve_no_solution_despite_backtrack P1 (by decide)).2 V1 (by decide)
     (Or.inl (by decide)),
   (solve_no_solution_despite_backtrack P5 (by decide)).2 X6 (by decide)
     (Or.inr (by decide))⟩

/-- C2: every complete assignment returned by `solve` uses pairwise
distinct words, assigns every slot a word of exactly its length, and
agrees character-for-character at the overlap offsets of every pair of
assigned neighboring slots. -/
theorem solution_valid (c : Puzzle) (r : Assignment) (hv : c.vars.Nodup)
    (h : solve c = some r) :
    (r.map Prod.snd).Nodup
    ∧ (∀ kv ∈ r, kv.2.length = kv.1.length)
    ∧ (∀ kv ∈ r, ∀ kv2 ∈ r, kv2.1 ∈ neighbors c kv.1 →
        ∀ i j, c.overlaps kv.1 kv2.1 = some (i, j) →
          kv.2.getD i ' ' = kv2.2.getD j ' ') := by
  obtain ⟨b, d2, hres, hbt⟩ := solve_eq_some h
  obtain ⟨h1, h2, h3, h4, h5⟩ := backtrack_sound c hv c.vars.length [] d2 r hbt
    (fun kv hkv => absurd hkv (List.not_mem_nil kv)) (by simp)
  have hcons : consistent c r = true := h2 rfl
  obtain ⟨hA, hB, hC⟩ := consistent_props hcons
  refine ⟨hA, hB, ?_⟩
  intro kv hkv kv2 hkv2 hnb i j hov
  have hlook : lookupA r kv2.1 = some kv2.2 := lookupA_eq_some r h3 hkv2
  exact hC kv hkv kv2.1 hnb kv2.2 hlook i j hov

/-- C2 (witness): the solution of the concrete puzzle `P2` satisfies the
validity properties. -/
theorem solution_valid_witness :
    (P2.vars.Nodup ∧ solve P2 = some [(V1, ['A'])])
    ∧ (([(V1, ['A'])] : Assignment).map Prod.snd).Nodup :=
  ⟨⟨by decide, by decide⟩,
   (solution_valid P2 [(V1, ['A'])] (by decide) (by decide)).1⟩

/-- C3: evaluating `order_domain_values` at a concrete state shows the
code returns candidates with the HIGHEST elimination cost first
(`reverse=True`), the opposite of the least-constraining-value order the
claim (and the method's own docstring) demand: "A" eliminates 1 value
from the unassigned neighbor's domain and "B" eliminates 0, yet "A" is
returned first. -/
theorem order_domain_values_highest_cost_first :
    order_domain_values P6 D3 X6 [] = [['A'], ['B']]
    ∧ odvCost P6 D3 X6 [] ['A'] = 1
    ∧ odvCost P6 D3 X6 [] ['B'] = 0 := by decide

/-- C4: evaluating `select_unassigned_variable` at a concrete state shows
it can return a slot whose domain size is NOT minimal: the tie-collection
loop gathers ties at every mrv level, so the degree tiebreak ranges over
slots tied at larger mrv values too.  Here `W3` (domain size 2, degree 3)
is returned although unassigned `W0` has domain size 1. -/
theorem select_unassigned_variable_not_mrv :
    select_unassigned_variable P4 D4 [] = some W3
    ∧ (D4 W3).length = 2
    ∧ (D4 W0).length = 1
    ∧ W0 ∈ unassignedVars P4 [] := by decide

/-- C5: evaluating `ac3()` on puzzle `P1` after node consistency: the only
slot's domain is empty (and the slot has no neighbors, so no arc ever
revises it), yet the worklist empties and `ac3` returns `True`,
contradicting the claim (and `ac3`'s docstring: "return False if one or
more domains end up empty"). -/
theorem ac3_returns_true_with_empty_domain :
    (ac3 P1 (enforce_node_consistency P1 (initDomains P1))).map Prod.fst
      = some true
    ∧ ac3Dom P1 (enforce_node_consistency P1 (initDomains P1)) V1 = [] := by
  decide

/-- C6: if `ac3()` with the default arc seeding returns `True`, then for
every ordered pair of neighboring slots with overlap offsets `(i, j)`,
every word remaining in the first slot's domain has a partner in the
second slot's domain agreeing at the offsets. -/
theorem ac3_arc_consistent (c : Puzzle) (d : Domains)
    (hsym : OverlapSym c) (hirr : OverlapIrrefl c)
    (x y : Variable) (i j : Nat) (w : Word)
    (hb : (ac3 c d).map Prod.fst = some true)
    (hx : x ∈ c.vars) (hy : y ∈ neighbors c x)
    (ho : c.overlaps x y = some (i, j))
    (hw : w ∈ ac3Dom c d x) :
    ∃ v ∈ ac3Dom c d y, w.getD i ' ' = v.getD j ' ' := by
  rcases hres : ac3 c d with _ | ⟨b, d2⟩
  · rw [hres] at hb
    cases hb
  · rw [hres] at hb
    have hbtrue : b = true := by simpa using hb
    subst hbtrue
    have hdom : ac3Dom c d = d2 := by
      unfold ac3Dom
      rw [hres, Option.getD_some]
    rw [hdom] at hw ⊢
    exact ac3_sound hsym hirr hres x hx y hy i j ho w hw

/-- C6 (witness): the arc-consistency invariant instantiated on the
concrete crossing pair `P6` after a successful `ac3` run. -/
theorem ac3_arc_consistent_witness :
    (OverlapSym P6 ∧ OverlapIrrefl P6
      ∧ (ac3 P6 D6).map Prod.fst = some true
      ∧ X6 ∈ P6.vars ∧ Y6 ∈ neighbors P6 X6
      ∧ P6.overlaps X6 Y6 = some (0, 0)
      ∧ (['A'] : Word) ∈ ac3Dom P6 D6 X6)
    ∧ ∃ v ∈ ac3Dom P6 D6 Y6, (['A'] : Word).getD 0 ' ' = v.getD 0 ' ' :=
  ⟨⟨by decide, by decide, by decide, by decide, by decide, by decide, by decide⟩,
   ac3_arc_consistent P6 D6 (by decide) (by decide) X6 Y6 0 0 ['A']
     (by decide) (by decide) (by decide) (by decide) (by decide)⟩

/-- C7: `revise(x, y)` with overlap `(i, j)` keeps in `x`'s domain exactly
the words with a matching partner in `y`'s domain, leaves `y`'s domain
unchanged, and reports `True` iff some word was removed; with no overlap
it changes nothing and reports `False`. -/
theorem revise_spec (c : Puzzle) (x y : Variable) (d : Domains)
    (hxy : x ≠ y) :
    (∀ i j, c.overlaps x y = some (i, j) →
      ((revise c x y d).2 x
          = (d x).filter (fun w => (d y).any (fun v => w.getD i ' ' == v.getD j ' '))
        ∧ (revise c x y d).2 y = d y
        ∧ ((revise c x y d).1 = true
            ↔ ∃ w ∈ d x, ∀ v ∈ d y, w.getD i ' ' ≠ v.getD j ' ')))
    ∧ (c.overlaps x y = none →
        (∀ v, (revise c x y d).2 v = d v) ∧ (revise c x y d).1 = false) := by
  constructor
  · intro i j ho
    rw [revise_some ho]
    refine ⟨by simp [updateD_apply], ?_, ?_⟩
    · simp [updateD_apply, Ne.symm hxy]
    · simp only
      rw [List.any_eq_true]
      constructor
      · rintro ⟨w, hw, hflag⟩
        refine ⟨w, hw, ?_⟩
        intro v hv heq
        rw [Bool.not_eq_true'] at hflag
        rw [List.any_eq_false] at hflag
        exact hflag v hv (by simpa using heq)
      · rintro ⟨w, hw, hnone⟩
        refine ⟨w, hw, ?_⟩
        rw [Bool.not_eq_true']
        rw [List.any_eq_false]
        intro v hv hbeq
        exact hnone v hv (by simpa using hbeq)
  · intro ho
    rw [revise_none ho]
    exact ⟨fun v => rfl, rfl⟩

/-- C7 (witness): `revise` on the crossing pair of `P6` computes the
filtered domain. -/
theorem revise_spec_witness :
    (X6 ≠ Y6 ∧ P6.overlaps X6 Y6 = some (0, 0))
    ∧ (revise P6 X6 Y6 D6).2 X6
        = (D6 X6).filter
            (fun w => (D6 Y6).any (fun v => w.getD 0 ' ' == v.getD 0 ' ')) :=
  ⟨⟨by decide, by decide⟩,
   ((revise_spec P6 X6 Y6 D6 (by decide)).1 0 0 (by decide)).1⟩

/-- C8: with the fuel set to the number of unassigned slots (or more),
`backtrack` always returns a definite answer — either Python `None` or a
complete assignment; fuel exhaustion cannot happen, so the recursion
depth is bounded by the number of unassigned slots. -/
theorem backtrack_terminates (c : Puzzle) (fuel : Nat) (d : Domains)
    (a : Assignment) (hv : c.vars.Nodup)
    (hks : ∀ kv ∈ a, kv.1 ∈ c.vars) (hnd : (a.map Prod.fst).Nodup)
    (hfuel : c.vars.length - a.length ≤ fuel) :
    ∃ r, (backtrack c fuel d a).1 = some r
      ∧ ∀ a2, r = some a2 → assignment_complete c a2 = true := by
  have hne := backtrack_total c hv fuel a d hks hnd hfuel
  rcases hbt : (backtrack c fuel d a).1 with _ | r0
  · exact absurd hbt hne
  · refine ⟨r0, rfl, ?_⟩
    rintro a2 rfl
    exact (backtrack_sound c hv fuel a d a2 hbt hks hnd).1

/-- C8 (witness): termination on the concrete puzzle `P2` from the empty
assignment with fuel 1. -/
theorem backtrack_terminates_witness :
    (P2.vars.Nodup ∧ P2.vars.length - 0 ≤ 1)
    ∧ ∃ r, (backtrack P2 1 (fun _ => [['A']]) []).1 = some r
      ∧ ∀ a2, r = some a2 → assignment_complete P2 a2 = true :=
  ⟨⟨by decide, by decide⟩,
   backtrack_terminates P2 1 (fun _ => [['A']]) [] (by decide)
     (fun kv hkv => absurd hkv (List.not_mem_nil kv)) (by decide) (by decide)⟩

/-- C9: after node consistency on the freshly seeded store, a word is in a
slot's domain exactly when it is a word of the original word list of
exactly the slot's length. -/
theorem node_consistency_spec (c : Puzzle) (v : Variable) (w : Word)
    (hv : v ∈ c.vars) :
    w ∈ enforce_node_consistency c (initDomains c) v
      ↔ w ∈ c.words ∧ w.length = v.length := by
  rw [enforce_node_consistency_apply c (initDomains c) v hv]
  simp [initDomains, List.mem_filter]

/-- C9 (witness): node consistency on `P2` keeps exactly the length-1 word
"A" for the length-1 slot. -/
theorem node_consistency_spec_witness :
    V1 ∈ P2.vars
    ∧ ((['A'] : Word) ∈ enforce_node_consistency P2 (initDomains P2) V1
        ↔ ['A'] ∈ P2.words ∧ (['A'] : Word).length = V1.length) :=
  ⟨by decide, node_consistency_spec P2 V1 ['A'] (by decide)⟩

/-- C10: the search phase never mutates the domain store: `backtrack`
(with its uses of `select_unassigned_variable`, `order_domain_values`,
`consistent` and `assignment_complete`) returns the domain store exactly
as it received it, whatever the result. -/
theorem backtrack_preserves_domains (c : Puzzle) (fuel : Nat) (d : Domains)
    (a : Assignment) : (backtrack c fuel d a).2 = d :=
  backtrack_frame c fuel d a

end Crossword
